import Mathlib

/-!
Shallow embedding of the `typed-arena` crate (`src/lib.rs`): a bump-allocating
object arena backed by a list of growable chunks (`Vec<Vec<T>>`).

A Rust `Vec<T>` is modelled as a `Chunk`: its element list plus its capacity.
`Vec::push`/`Vec::extend` may reallocate when the needed length exceeds the
capacity; the standard library only guarantees the grown capacity is at least
the needed length, so the model takes the least such value.  The arena's own
algorithms are careful to stay within capacity on every path where element
addresses must be stable, and the theorems below never depend on the exact
grown capacity of an over-full extend.

Arithmetic on `usize` that the source checks (`checked_mul`,
`checked_next_power_of_two` in `ChunkList::reserve`) is modelled on `Nat`
with an explicit bound `usizeMax = 2 ^ 64 - 1`; a panic (`expect "capacity
overflow"`) is modelled as `none`, and every operation that can reach
`reserve` is therefore `Option`-valued.
-/

set_option maxHeartbeats 1000000

namespace TypedArena

/-- One chunk: a `Vec<T>`, i.e. its elements in order plus its capacity. -/
structure Chunk (T : Type) where
  data : List T
  cap : Nat
deriving DecidableEq

/-- `ChunkList<T>`: the chunk currently receiving elements plus the retired
chunks, oldest first (source lines 106-109). The `Arena` itself only wraps
this in a `RefCell`, so the arena state is a `ChunkList`. -/
structure ChunkList (T : Type) where
  current : Chunk T
  rest : List (Chunk T)
deriving DecidableEq

/-- `Vec::len`. -/
def Chunk.len {T : Type} (c : Chunk T) : Nat := c.data.length

/-- `Vec::extend`: append the elements; if the needed length exceeds the
capacity the vector reallocates to a capacity at least the needed length
(modelled as the least such value, see the file comment). -/
def Chunk.extend {T : Type} (c : Chunk T) (xs : List T) : Chunk T :=
  ⟨c.data ++ xs, max c.cap (c.data.length + xs.length)⟩

/-- `Vec::push`, a one-element extend. -/
def Chunk.push {T : Type} (c : Chunk T) (x : T) : Chunk T :=
  c.extend [x]

/-- `INITIAL_SIZE` (source line 82): initial chunk size in bytes. -/
def INITIAL_SIZE : Nat := 1024

/-- `MIN_CAPACITY` (source line 84). -/
def MIN_CAPACITY : Nat := 1

/-- Width of `usize`, taken as 64 bits. -/
def usizeBits : Nat := 64

/-- `usize::MAX`. -/
def usizeMax : Nat := 2 ^ usizeBits - 1

/-- Fuel-driven core of `nextPow2`; fuel `n` is always sufficient since the
argument at least halves at each step. -/
def nextPow2Go : Nat → Nat → Nat
  | 0, _ => 1
  | fuel + 1, n => if n ≤ 1 then 1 else 2 * nextPow2Go fuel ((n + 1) / 2)

/-- `usize::next_power_of_two` on `Nat`: the least power of two that is
greater than or equal to `n` (with `nextPow2 0 = 1`, as in Rust). -/
def nextPow2 (n : Nat) : Nat := nextPow2Go n n

/-- `usize::checked_mul(2)`: `none` models the overflow case. -/
def checkedMul2 (n : Nat) : Option Nat :=
  if n * 2 ≤ usizeMax then some (n * 2) else none

/-- `usize::checked_next_power_of_two`: `none` models the case where the next
power of two does not fit in the machine word. -/
def checkedNextPow2 (n : Nat) : Option Nat :=
  if nextPow2 n ≤ usizeMax then some (nextPow2 n) else none

/-- `ChunkList::reserve` (source lines 398-410): compute the new capacity
`max(2 * current.capacity, next_power_of_two(additional))`, retire the old
current chunk to the end of `rest`, and install a fresh empty chunk with the
new capacity.  `none` models the `expect("capacity overflow")` panics, both
of which happen before any part of the chunk list is mutated. -/
def ChunkList.reserve {T : Type} (cl : ChunkList T) (additional : Nat) :
    Option (ChunkList T) :=
  match checkedMul2 cl.current.cap, checkedNextPow2 additional with
  | some doubleCap, some requiredCap =>
      some ⟨⟨[], max doubleCap requiredCap⟩, cl.rest ++ [cl.current]⟩
  | _, _ => none

/-- `Arena::with_capacity` (source lines 137-145): the first chunk's capacity
is `max(MIN_CAPACITY, n)`. -/
def withCapacity (T : Type) (n : Nat) : ChunkList T :=
  ⟨⟨[], max MIN_CAPACITY n⟩, []⟩

/-- `Arena::new` (source lines 122-125), with `size_of::<T>()` passed in. -/
def newArena (T : Type) (sizeOfT : Nat) : ChunkList T :=
  withCapacity T (INITIAL_SIZE / max 1 sizeOfT)

/-- The `while let Some(elem) = iter.next()` loop of `Arena::alloc_extend`
(source lines 211-234), taken after the size-hint fast check failed.
`startLen` is the `next_item_index` recorded before the loop and `i` counts
the elements already pushed by this call.  The result is the final chunk
list, the `next_item_index` the returned slice starts at, and — for the
growth edge case — the pair `(i, new capacity)` chosen by the in-loop
`reserve(i + 1)` (`none` when the loop finished without growing).  When the
current chunk is exactly full mid-sequence, the source retires it via
`reserve(i + 1)`, drains the `i` elements this call had pushed out of the
just-retired chunk's tail back into the fresh current chunk, pushes the
overflow element, and extends with the rest of the iterator. -/
def allocExtendLoop {T : Type} (startLen : Nat) :
    ChunkList T → Nat → List T → Option (ChunkList T × Nat × Option (Nat × Nat))
  | cl, _, [] => some (cl, startLen, none)
  | cl, i, x :: ys =>
    if cl.current.len = cl.current.cap then
      match cl.reserve (i + 1) with
      | none => none
      | some cl₁ =>
        let prevLen := cl.current.len
        let moved := cl.current.data.drop (prevLen - i)
        let kept : Chunk T := ⟨cl.current.data.take (prevLen - i), cl.current.cap⟩
        let newCurrent := ((cl₁.current.extend moved).push x).extend ys
        some (⟨newCurrent, cl.rest ++ [kept]⟩, 0, some (i, cl₁.current.cap))
    else
      allocExtendLoop startLen ⟨cl.current.push x, cl.rest⟩ (i + 1) ys

/-- `Arena::alloc_extend` (source lines 196-248).  The iterator is modelled
as its element list `xs` together with the lower bound `hint` of its
`size_hint` (the source only reads `iter.size_hint().0`; an under-reporting
hint is allowed, which is why the element list is independent of it).
Returns the new state, the index the returned slice starts at in the current
chunk, and the in-loop growth report of `allocExtendLoop`. -/
def allocExtendFull {T : Type} (cl : ChunkList T) (hint : Nat) (xs : List T) :
    Option (ChunkList T × Nat × Option (Nat × Nat)) :=
  if cl.current.len + hint > cl.current.cap then
    match cl.reserve hint with
    | none => none
    | some cl₁ => some (⟨cl₁.current.extend xs, cl₁.rest⟩, 0, none)
  else
    allocExtendLoop cl.current.len cl 0 xs

/-- `Arena::alloc_extend`, returning the new state together with the
contents of the returned slice `&mut chunks.current[next_item_index..]`. -/
def allocExtend {T : Type} (cl : ChunkList T) (hint : Nat) (xs : List T) :
    Option (ChunkList T × List T) :=
  (allocExtendFull cl hint xs).map fun out =>
    (out.1, out.1.current.data.drop out.2.1)

/-- `Arena::alloc` (source lines 160-182): fast path pushes into the current
chunk when `len < capacity`; the slow path is `alloc_extend(iter::once(value))`
(whose `size_hint` lower bound is 1). -/
def alloc {T : Type} (cl : ChunkList T) (x : T) : Option (ChunkList T) :=
  if cl.current.len < cl.current.cap then
    some ⟨cl.current.push x, cl.rest⟩
  else
    (allocExtendFull cl 1 [x]).map (·.1)

/-- `Arena::into_vec` (source lines 317-330): append the retired chunks in
retirement order, then the current chunk. -/
def intoVec {T : Type} (cl : ChunkList T) : List T :=
  (cl.rest.foldl (fun acc c => acc ++ c.data) []) ++ cl.current.data

/-- One public allocation call, for stating properties of arbitrary call
sequences. -/
inductive Op (T : Type) where
  | alloc : T → Op T
  | allocExtend : Nat → List T → Op T
deriving DecidableEq

/-- Run one allocation call. -/
def runOp {T : Type} (cl : ChunkList T) : Op T → Option (ChunkList T)
  | .alloc x => alloc cl x
  | .allocExtend hint xs => (allocExtendFull cl hint xs).map (·.1)

/-- Run a sequence of allocation calls; `none` as soon as one panics. -/
def runOps {T : Type} : ChunkList T → List (Op T) → Option (ChunkList T)
  | cl, [] => some cl
  | cl, op :: ops =>
    match runOp cl op with
    | none => none
    | some cl' => runOps cl' ops

/-- The values a call stores, in order. -/
def opElems {T : Type} : Op T → List T
  | .alloc x => [x]
  | .allocExtend _ xs => xs

/-- All values a call sequence stores, in allocation order. -/
def opsElems {T : Type} (ops : List (Op T)) : List T :=
  (ops.map opElems).flatten

/-- `ChunkListPosition` (source lines 413-416): the iterator's discriminated
position, either inside retired chunk `index` at `innerIndex`, or inside the
current chunk.  A value of this type also serves as the model of a reference
into the arena: the slot it denotes. -/
inductive ChunkListPosition where
  | rest : Nat → Nat → ChunkListPosition
  | current : Nat → ChunkListPosition
deriving DecidableEq

/-- `IterMut` (source lines 421-424). -/
structure IterMut (T : Type) where
  chunks : ChunkList T
  position : ChunkListPosition
deriving DecidableEq

/-- `IterMut::next` (source lines 428-473), fuel-driven: the source method
calls itself recursively to skip an exhausted retired chunk or to switch from
`rest` to `current`; each such self-call either advances the chunk index or
moves to the current chunk, so `rest.length + 2` units of fuel always
suffice (the callers below pass exactly that).  Returns the next position of
the iterator, the slot the yielded reference points to, and the value held
in that slot. -/
def nextAux {T : Type} :
    Nat → ChunkList T → ChunkListPosition →
      Option (ChunkListPosition × ChunkListPosition × T)
  | 0, _, _ => none
  | fuel + 1, cl, .rest index innerIndex =>
    match cl.rest.get? index with
    | some chunk =>
      match chunk.data.get? innerIndex with
      | some v => some (.rest index (innerIndex + 1), .rest index innerIndex, v)
      | none => nextAux fuel cl (.rest (index + 1) 0)
    | none => nextAux fuel cl (.current 0)
  | _ + 1, cl, .current index =>
    match cl.current.data.get? index with
    | some v => some (.current (index + 1), .current index, v)
    | none => none

/-- `IterMut::next` as a step on the iterator state. -/
def IterMut.next {T : Type} (it : IterMut T) :
    Option (IterMut T × ChunkListPosition × T) :=
  (nextAux (it.chunks.rest.length + 2) it.chunks it.position).map
    fun r => (⟨it.chunks, r.1⟩, r.2)

/-- `Arena::iter_mut` (source lines 378-386): start at retired chunk 0,
offset 0. -/
def iterMut {T : Type} (cl : ChunkList T) : IterMut T :=
  ⟨cl, .rest 0 0⟩

/-- Drive the iterator for at most `fuel` calls to `next`, collecting the
yielded (slot, value) pairs in order. -/
def runIter {T : Type} : Nat → IterMut T → List (ChunkListPosition × T)
  | 0, _ => []
  | fuel + 1, it =>
    match it.next with
    | none => []
    | some (it', y) => y :: runIter fuel it'

/-- Tag the elements of a list with consecutive slot positions starting at
`k`. -/
def tagged {T : Type} (f : Nat → ChunkListPosition) :
    Nat → List T → List (ChunkListPosition × T)
  | _, [] => []
  | k, x :: xs => (f k, x) :: tagged f (k + 1) xs

/-- The slots of a run of retired chunks whose first chunk has index `i`,
in allocation order. -/
def restSlots {T : Type} : Nat → List (Chunk T) → List (ChunkListPosition × T)
  | _, [] => []
  | i, c :: cs =>
    tagged (ChunkListPosition.rest i) 0 c.data ++ restSlots (i + 1) cs

/-- Every occupied slot of the arena, in allocation order: all retired
chunks oldest first, then the current chunk. -/
def allocSlots {T : Type} (cl : ChunkList T) : List (ChunkListPosition × T) :=
  restSlots 0 cl.rest ++ tagged ChunkListPosition.current 0 cl.current.data

/-- The slots the iterator has yet to yield from a given position. -/
def posSlots {T : Type} (cl : ChunkList T) :
    ChunkListPosition → List (ChunkListPosition × T)
  | .rest i j =>
    (match cl.rest.get? i with
     | some c => tagged (ChunkListPosition.rest i) j (c.data.drop j)
     | none => []) ++
    restSlots (i + 1) (cl.rest.drop (i + 1)) ++
    tagged ChunkListPosition.current 0 cl.current.data
  | .current k => tagged ChunkListPosition.current k (cl.current.data.drop k)

/-! ### Arithmetic helper lemmas -/

lemma le_nextPow2Go : ∀ (fuel n : Nat), n ≤ fuel → n ≤ nextPow2Go fuel n := by
  intro fuel
  induction fuel with
  | zero =>
    intro n h
    simp only [nextPow2Go]
    omega
  | succ fuel ih =>
    intro n h
    by_cases h1 : n ≤ 1
    · simp only [nextPow2Go, if_pos h1]
      omega
    · have h2 : (n + 1) / 2 ≤ fuel := by omega
      have h3 := ih ((n + 1) / 2) h2
      simp only [nextPow2Go, if_neg h1]
      omega

lemma le_nextPow2 (n : Nat) : n ≤ nextPow2 n :=
  le_nextPow2Go n n le_rfl

/-! ### `intoVec` normal form -/

lemma foldl_append_data {T : Type} :
    ∀ (l : List (Chunk T)) (acc : List T),
      l.foldl (fun a c => a ++ c.data) acc = acc ++ (l.map Chunk.data).flatten := by
  intro l
  induction l with
  | nil => intro acc; simp
  | cons c cs ih => intro acc; simp [ih]

lemma intoVec_eq {T : Type} (cl : ChunkList T) :
    intoVec cl = (cl.rest.map Chunk.data).flatten ++ cl.current.data := by
  simp [intoVec, foldl_append_data]

/-! ### `reserve` lemmas -/

lemma reserve_eq_some {T : Type} (cl : ChunkList T) (a : Nat) (cl' : ChunkList T)
    (h : cl.reserve a = some cl') :
    cl' = ⟨⟨[], max (cl.current.cap * 2) (nextPow2 a)⟩, cl.rest ++ [cl.current]⟩ ∧
    cl.current.cap * 2 ≤ usizeMax ∧ nextPow2 a ≤ usizeMax := by
  unfold ChunkList.reserve checkedMul2 checkedNextPow2 at h
  split_ifs at h with h1 h2
  all_goals simp_all

/-- C5: whenever growth is triggered with requested additional count `a` and
no arithmetic overflow occurs (`reserve` returns a state rather than
panicking), the new current chunk's capacity is exactly
`max(2 * old capacity, next_power_of_two(a))`, the old current chunk is
appended unchanged to the end of the rest list, and the new current chunk is
empty. -/
theorem reserve_growth_policy (T : Type) (cl : ChunkList T) (a : Nat)
    (cl' : ChunkList T) (h : cl.reserve a = some cl') :
    cl'.current.cap = max (2 * cl.current.cap) (nextPow2 a) ∧
    cl'.current.data = [] ∧
    cl'.rest = cl.rest ++ [cl.current] := by
  obtain ⟨rfl, -, -⟩ := reserve_eq_some cl a cl' h
  exact ⟨by simp [Nat.mul_comm], rfl, rfl⟩

theorem reserve_growth_policy_witness :
    (ChunkList.mk (Chunk.mk ([] : List Nat) 8) [⟨[], 3⟩]).current.cap
        = max (2 * (withCapacity Nat 3).current.cap) (nextPow2 5) ∧
    (ChunkList.mk (Chunk.mk ([] : List Nat) 8) [⟨[], 3⟩]).current.data = [] ∧
    (ChunkList.mk (Chunk.mk ([] : List Nat) 8) [⟨[], 3⟩]).rest
        = (withCapacity Nat 3).rest ++ [(withCapacity Nat 3).current] :=
  reserve_growth_policy Nat (withCapacity Nat 3) 5 ⟨⟨[], 8⟩, [⟨[], 3⟩]⟩ (by decide)

/-- C9: the growth operation signals the fatal capacity-overflow error
(modelled as `none`, the `expect` panics of the source, which both happen
before the chunk list is touched, so the list is unchanged on this path)
exactly when doubling the current capacity exceeds the machine word or the
requested additional count has no machine-representable next power of
two. -/
theorem reserve_overflow_iff (T : Type) (cl : ChunkList T) (a : Nat) :
    cl.reserve a = none ↔
      usizeMax < cl.current.cap * 2 ∨ usizeMax < nextPow2 a := by
  unfold ChunkList.reserve checkedMul2 checkedNextPow2
  split_ifs with h1 h2 <;> simp <;> omega

/-! ### Characterization of the `alloc_extend` loop -/

lemma allocExtendLoop_spec {T : Type} :
    ∀ (ys : List T) (rest₀ : List (Chunk T)) (orig taken : List T) (cap₀ : Nat)
      (out : ChunkList T × Nat × Option (Nat × Nat)),
      orig.length + taken.length ≤ cap₀ →
      allocExtendLoop orig.length ⟨⟨orig ++ taken, cap₀⟩, rest₀⟩ taken.length ys
        = some out →
      (out.2.2 = none ∧ out.2.1 = orig.length ∧ out.1.rest = rest₀ ∧
        out.1.current.data = orig ++ (taken ++ ys)) ∨
      (∃ i c, out.2.2 = some (i, c) ∧ i + 1 ≤ c ∧ out.2.1 = 0 ∧
        out.1.rest = rest₀ ++ [⟨orig, cap₀⟩] ∧
        out.1.current.data = taken ++ ys) := by
  intro ys
  induction ys with
  | nil =>
    intro rest₀ orig taken cap₀ out hlen h
    simp only [allocExtendLoop, Option.some.injEq] at h
    subst h
    exact Or.inl ⟨rfl, rfl, rfl, by simp⟩
  | cons x ys ih =>
    intro rest₀ orig taken cap₀ out hlen h
    rw [allocExtendLoop] at h
    by_cases hfull : (orig ++ taken).length = cap₀
    · rw [if_pos (by simpa [Chunk.len] using hfull)] at h
      cases hres : ChunkList.reserve ⟨⟨orig ++ taken, cap₀⟩, rest₀⟩ (taken.length + 1) with
      | none => rw [hres] at h; cases h
      | some cl₁ =>
        rw [hres] at h
        obtain ⟨hcl₁, -, -⟩ := reserve_eq_some _ _ _ hres
        subst hcl₁
        simp only [Chunk.len, Chunk.push, Chunk.extend, List.length_append,
          Nat.add_sub_cancel, List.drop_left, List.take_left, List.nil_append,
          Option.some.injEq] at h
        subst h
        refine Or.inr ⟨taken.length, _, rfl, ?_, rfl, rfl, by simp⟩
        calc taken.length + 1 ≤ nextPow2 (taken.length + 1) := le_nextPow2 _
          _ ≤ max (cap₀ * 2) (nextPow2 (taken.length + 1)) := le_max_right _ _
    · rw [if_neg (by simpa [Chunk.len] using hfull)] at h
      have hni := List.length_append orig taken
      have hlt : (orig ++ taken).length < cap₀ := by omega
      have epush : (Chunk.mk (orig ++ taken) cap₀).push x
          = Chunk.mk (orig ++ (taken ++ [x])) cap₀ := by
        simp only [Chunk.push, Chunk.extend, Chunk.mk.injEq, List.append_assoc,
          List.length_append, List.length_cons, List.length_nil]
        exact ⟨trivial, by omega⟩
      rw [epush] at h
      have h' : allocExtendLoop orig.length
          ⟨⟨orig ++ (taken ++ [x]), cap₀⟩, rest₀⟩ (taken ++ [x]).length ys
            = some out := by
        simpa using h
      have hlen' : orig.length + (taken ++ [x]).length ≤ cap₀ := by
        simp only [List.length_append, List.length_cons, List.length_nil]
        omega
      rcases ih rest₀ orig (taken ++ [x]) cap₀ out hlen' h' with
        ⟨h1, h2, h3, h4⟩ | ⟨i, c, h1, h2, h3, h4, h5⟩
      · exact Or.inl ⟨h1, h2, h3, by simpa using h4⟩
      · exact Or.inr ⟨i, c, h1, h2, h3, h4, by simpa using h5⟩

/-- Full characterization of `alloc_extend`: the returned slice (the suffix
of the current chunk starting at the returned index) is exactly the input
list; the final state either keeps the rest list and appends the input to
the current chunk's elements, or retires the pre-call current chunk
unchanged to the end of the rest list and starts a fresh current chunk
holding exactly the input; and whenever the in-loop growth fired with `i`
elements already pushed, the capacity it chose is at least `i + 1` and
exactly one chunk was retired. -/
lemma allocExtendFull_spec {T : Type} (cl : ChunkList T) (hint : Nat)
    (xs : List T) (out : ChunkList T × Nat × Option (Nat × Nat))
    (h : allocExtendFull cl hint xs = some out) :
    out.1.current.data.drop out.2.1 = xs ∧
    ((out.1.rest = cl.rest ∧ out.1.current.data = cl.current.data ++ xs ∧
        out.2.1 = cl.current.data.length) ∨
      (out.1.rest = cl.rest ++ [cl.current] ∧ out.1.current.data = xs ∧
        out.2.1 = 0)) ∧
    (∀ i c, out.2.2 = some (i, c) → i + 1 ≤ c ∧
        out.1.rest = cl.rest ++ [cl.current]) := by
  unfold allocExtendFull at h
  split_ifs at h with hcond
  · cases hres : cl.reserve hint with
    | none => rw [hres] at h; cases h
    | some cl₁ =>
      rw [hres] at h
      obtain ⟨hcl₁, -, -⟩ := reserve_eq_some _ _ _ hres
      subst hcl₁
      simp only [Chunk.extend, List.nil_append, Option.some.injEq] at h
      subst h
      refine ⟨by simp, Or.inr ⟨rfl, rfl, rfl⟩, ?_⟩
      intro i c hic
      cases hic
  · have hle : cl.current.data.length + hint ≤ cl.current.cap := by
      simpa [Chunk.len] using hcond
    have h' : allocExtendLoop cl.current.data.length
        ⟨⟨cl.current.data ++ ([] : List T), cl.current.cap⟩, cl.rest⟩
        (List.length ([] : List T)) xs = some out := by
      simpa [Chunk.len] using h
    rcases allocExtendLoop_spec xs cl.rest cl.current.data [] cl.current.cap out
        (by simp only [List.length_nil]; omega) h' with
      ⟨h1, h2, h3, h4⟩ | ⟨i, c, h1, h2, h3, h4, h5⟩
    · refine ⟨?_, Or.inl ⟨h3, by simpa using h4, h2⟩, ?_⟩
      · rw [h4, h2]; simp
      · intro i c hic
        rw [h1] at hic
        cases hic
    · refine ⟨?_, Or.inr ⟨h4, by simpa using h5, h3⟩, ?_⟩
      · rw [h5, h3]; simp
      · intro i' c' hic
        rw [h1] at hic
        cases hic
        exact ⟨h2, h4⟩

lemma allocExtendFull_intoVec {T : Type} (cl : ChunkList T) (hint : Nat)
    (xs : List T) (out : ChunkList T × Nat × Option (Nat × Nat))
    (h : allocExtendFull cl hint xs = some out) :
    intoVec out.1 = intoVec cl ++ xs := by
  rcases (allocExtendFull_spec cl hint xs out h).2.1 with ⟨h1, h2, -⟩ | ⟨h1, h2, -⟩
  · rw [intoVec_eq, intoVec_eq, h1, h2, List.append_assoc]
  · rw [intoVec_eq, intoVec_eq, h1, h2]
    simp [List.append_assoc]

/-! ### Specifications of single calls and call sequences -/

lemma runOp_spec {T : Type} (cl : ChunkList T) (op : Op T) (cl' : ChunkList T)
    (h : runOp cl op = some cl') :
    intoVec cl' = intoVec cl ++ opElems op ∧
    ((cl'.rest = cl.rest ∧ ∃ ys, cl'.current.data = cl.current.data ++ ys) ∨
      cl'.rest = cl.rest ++ [cl.current]) := by
  cases op with
  | alloc x =>
    unfold runOp alloc at h
    split_ifs at h with hfast
    · cases h
      refine ⟨?_, Or.inl ⟨rfl, [x], by simp [Chunk.push, Chunk.extend]⟩⟩
      rw [intoVec_eq, intoVec_eq]
      simp [Chunk.push, Chunk.extend, opElems]
    · obtain ⟨out, hf, rfl⟩ := Option.map_eq_some'.mp h
      refine ⟨allocExtendFull_intoVec cl 1 [x] out hf, ?_⟩
      rcases (allocExtendFull_spec cl 1 [x] out hf).2.1 with ⟨h1, h2, -⟩ | ⟨h1, -, -⟩
      · exact Or.inl ⟨h1, [x], h2⟩
      · exact Or.inr h1
  | allocExtend hint xs =>
    unfold runOp at h
    obtain ⟨out, hf, rfl⟩ := Option.map_eq_some'.mp h
    refine ⟨allocExtendFull_intoVec cl hint xs out hf, ?_⟩
    rcases (allocExtendFull_spec cl hint xs out hf).2.1 with ⟨h1, h2, -⟩ | ⟨h1, -, -⟩
    · exact Or.inl ⟨h1, xs, h2⟩
    · exact Or.inr h1

lemma runOps_intoVec {T : Type} :
    ∀ (ops : List (Op T)) (cl cl' : ChunkList T),
      runOps cl ops = some cl' → intoVec cl' = intoVec cl ++ opsElems ops := by
  intro ops
  induction ops with
  | nil =>
    intro cl cl' h
    cases h
    simp [opsElems]
  | cons op ops ih =>
    intro cl cl' h
    unfold runOps at h
    cases hstep : runOp cl op with
    | none => rw [hstep] at h; cases h
    | some cl₁ =>
      rw [hstep] at h
      rw [ih cl₁ cl' h, (runOp_spec cl op cl₁ hstep).1]
      simp [opsElems, List.append_assoc]

lemma opsElems_map_alloc {T : Type} (xs : List T) :
    opsElems (xs.map Op.alloc) = xs := by
  induction xs with
  | nil => simp [opsElems]
  | cons x xs ih => simpa [opsElems, opElems] using ih

/-! ### Claims about allocation calls -/

/-- C1: for every finite input sequence passed to `alloc_extend`, with any
size hint — including hints that under-report the true length so that the
current chunk fills mid-consumption — a completed call returns a slice (a
contiguous suffix of the current chunk, starting at the returned index)
holding exactly the input elements in input order, and a subsequent
`into_vec` shows all elements stored by earlier calls unchanged and in
their old relative order, followed by the new elements. -/
theorem alloc_extend_contiguous (T : Type) (cl : ChunkList T) (hint : Nat)
    (xs : List T) (cl' : ChunkList T) (sl : List T)
    (h : allocExtend cl hint xs = some (cl', sl)) :
    sl = xs ∧ intoVec cl' = intoVec cl ++ xs := by
  obtain ⟨out, hf, hpair⟩ := Option.map_eq_some'.mp h
  rw [Prod.mk.injEq] at hpair
  obtain ⟨h1, h2⟩ := hpair
  subst h1
  subst h2
  exact ⟨(allocExtendFull_spec cl hint xs out hf).1,
    allocExtendFull_intoVec cl hint xs out hf⟩

theorem alloc_extend_contiguous_witness :
    ([1, 2, 3, 4, 5, 6] : List Nat) = [1, 2, 3, 4, 5, 6] ∧
    intoVec (⟨⟨[1, 2, 3, 4, 5, 6], 8⟩, [⟨[], 4⟩]⟩ : ChunkList Nat)
      = intoVec (withCapacity Nat 4) ++ [1, 2, 3, 4, 5, 6] :=
  alloc_extend_contiguous Nat (withCapacity Nat 4) 2 [1, 2, 3, 4, 5, 6]
    ⟨⟨[1, 2, 3, 4, 5, 6], 8⟩, [⟨[], 4⟩]⟩ [1, 2, 3, 4, 5, 6] (by decide)

lemma tagged_map_snd {T : Type} (f : Nat → ChunkListPosition) :
    ∀ (k : Nat) (xs : List T), (tagged f k xs).map Prod.snd = xs := by
  intro k xs
  induction xs generalizing k with
  | nil => simp [tagged]
  | cons x xs ih => simp [tagged, ih]

lemma restSlots_map_snd {T : Type} :
    ∀ (cs : List (Chunk T)) (i : Nat),
      (restSlots i cs).map Prod.snd = (cs.map Chunk.data).flatten := by
  intro cs
  induction cs with
  | nil => intro i; simp [restSlots]
  | cons c cs ih => intro i; simp [restSlots, tagged_map_snd, ih]

lemma allocSlots_map_snd {T : Type} (cl : ChunkList T) :
    (allocSlots cl).map Prod.snd = intoVec cl := by
  simp [allocSlots, restSlots_map_snd, tagged_map_snd, intoVec_eq]

/-- C10: calling `alloc_extend` with an iterator that yields no elements
returns an empty slice and leaves the flat sequence of stored elements — as
observed by `into_vec` or by the values of the allocation-order slot list
that `iter_mut` traverses — unchanged, even when a positive size hint
triggers a chunk growth. -/
theorem alloc_extend_empty (T : Type) (cl : ChunkList T) (hint : Nat)
    (cl' : ChunkList T) (sl : List T)
    (h : allocExtend cl hint [] = some (cl', sl)) :
    sl = [] ∧ intoVec cl' = intoVec cl ∧
    (allocSlots cl').map Prod.snd = (allocSlots cl).map Prod.snd := by
  obtain ⟨out, hf, hpair⟩ := Option.map_eq_some'.mp h
  rw [Prod.mk.injEq] at hpair
  obtain ⟨h1, h2⟩ := hpair
  subst h1
  subst h2
  have hv : intoVec out.1 = intoVec cl := by
    simpa using allocExtendFull_intoVec cl hint [] out hf
  refine ⟨(allocExtendFull_spec cl hint [] out hf).1, hv, ?_⟩
  rw [allocSlots_map_snd, allocSlots_map_snd, hv]

theorem alloc_extend_empty_witness :
    ([] : List Nat) = [] ∧
    intoVec (⟨⟨[], 8⟩, [⟨[7], 2⟩]⟩ : ChunkList Nat)
      = intoVec (⟨⟨[7], 2⟩, []⟩ : ChunkList Nat) ∧
    (allocSlots (⟨⟨[], 8⟩, [⟨[7], 2⟩]⟩ : ChunkList Nat)).map Prod.snd
      = (allocSlots (⟨⟨[7], 2⟩, []⟩ : ChunkList Nat)).map Prod.snd :=
  alloc_extend_empty Nat ⟨⟨[7], 2⟩, []⟩ 5 ⟨⟨[], 8⟩, [⟨[7], 2⟩]⟩ [] (by decide)

/-- C2: after any sequence of `alloc` / `alloc_extend` calls on a freshly
constructed arena, `into_vec` returns the concatenation of the retired
chunks in retirement order followed by the current chunk, and this flat
sequence is exactly the elements in allocation order, regardless of how
many growth events occurred. -/
theorem into_vec_allocation_order (T : Type) (n : Nat) (ops : List (Op T))
    (cl' : ChunkList T) (h : runOps (withCapacity T n) ops = some cl') :
    intoVec cl' = opsElems ops ∧
    intoVec cl' = (cl'.rest.map Chunk.data).flatten ++ cl'.current.data := by
  refine ⟨?_, intoVec_eq cl'⟩
  rw [runOps_intoVec ops (withCapacity T n) cl' h]
  simp [intoVec, withCapacity]

theorem into_vec_allocation_order_witness :
    intoVec (⟨⟨[12], 4⟩, [⟨[10, 11], 2⟩]⟩ : ChunkList Nat)
      = opsElems [Op.alloc 10, Op.alloc 11, Op.alloc 12] ∧
    intoVec (⟨⟨[12], 4⟩, [⟨[10, 11], 2⟩]⟩ : ChunkList Nat)
      = (([⟨[10, 11], 2⟩] : List (Chunk Nat)).map Chunk.data).flatten ++ [12] :=
  into_vec_allocation_order Nat 2 [Op.alloc 10, Op.alloc 11, Op.alloc 12]
    ⟨⟨[12], 4⟩, [⟨[10, 11], 2⟩]⟩ (by decide)

/-- C7: starting from any arena state, allocating the values of a list one
at a time with `alloc` and allocating them in one `alloc_extend` call (with
any size hint) leave the arena with identical stored contents in identical
relative order, as observed by `into_vec` — even though the chunk
boundaries of the two results may differ. -/
theorem bulk_single_equivalence (T : Type) (cl : ChunkList T) (xs : List T)
    (hint : Nat) (cl₁ cl₂ : ChunkList T) (sl : List T)
    (h1 : runOps cl (xs.map Op.alloc) = some cl₁)
    (h2 : allocExtend cl hint xs = some (cl₂, sl)) :
    intoVec cl₁ = intoVec cl₂ := by
  obtain ⟨out, hf, hpair⟩ := Option.map_eq_some'.mp h2
  rw [Prod.mk.injEq] at hpair
  obtain ⟨h3, -⟩ := hpair
  subst h3
  rw [runOps_intoVec _ _ _ h1, opsElems_map_alloc,
    allocExtendFull_intoVec cl hint xs out hf]

theorem bulk_single_equivalence_witness :
    intoVec (⟨⟨[3], 4⟩, [⟨[1, 2], 2⟩]⟩ : ChunkList Nat)
      = intoVec (⟨⟨[1, 2, 3], 4⟩, [⟨[], 2⟩]⟩ : ChunkList Nat) :=
  bulk_single_equivalence Nat (withCapacity Nat 2) [1, 2, 3] 3
    ⟨⟨[3], 4⟩, [⟨[1, 2], 2⟩]⟩ ⟨⟨[1, 2, 3], 4⟩, [⟨[], 2⟩]⟩ [1, 2, 3]
    (by decide) (by decide)

/-- C4: across any sequence of `alloc` / `alloc_extend` calls, no later
allocation modifies, moves or removes an element stored earlier: the rest
list is only ever appended to (so a chunk retired before the sequence
started is never changed), and the elements the current chunk held at the
start either remain in place as a prefix of the current chunk, or sit as a
prefix of the chunk that was retired to position `cl.rest.length` — the
pre-existing elements are never reassigned, only elements pushed within a
single in-progress `alloc_extend` call are ever moved, and only before that
call returns. -/
theorem allocation_stability (T : Type) (ops : List (Op T))
    (cl cl' : ChunkList T) (h : runOps cl ops = some cl') :
    (∃ zs, cl'.rest = cl.rest ++ zs) ∧
    ((cl'.rest = cl.rest ∧ ∃ ys, cl'.current.data = cl.current.data ++ ys) ∨
      (∃ c zs, cl'.rest = cl.rest ++ c :: zs ∧
        ∃ ys, c.data = cl.current.data ++ ys)) := by
  induction ops generalizing cl with
  | nil =>
    cases h
    exact ⟨⟨[], by simp⟩, Or.inl ⟨rfl, [], by simp⟩⟩
  | cons op ops ih =>
    unfold runOps at h
    cases hstep : runOp cl op with
    | none => rw [hstep] at h; cases h
    | some clm =>
      rw [hstep] at h
      obtain ⟨⟨zs, hz⟩, hdisj⟩ := ih clm h
      rcases (runOp_spec cl op clm hstep).2 with ⟨hr, ys, hy⟩ | hr
      · refine ⟨⟨zs, by rw [hz, hr]⟩, ?_⟩
        rcases hdisj with ⟨hr', ys', hy'⟩ | ⟨c, zs', hz', ys', hy'⟩
        · exact Or.inl ⟨by rw [hr', hr], ys ++ ys', by rw [hy', hy, List.append_assoc]⟩
        · exact Or.inr ⟨c, zs', by rw [hz', hr], ys ++ ys',
            by rw [hy', hy, List.append_assoc]⟩
      · refine ⟨⟨cl.current :: zs, by rw [hz, hr]; simp⟩, ?_⟩
        exact Or.inr ⟨cl.current, zs, by rw [hz, hr]; simp, [], by simp⟩

theorem allocation_stability_witness :
    (∃ zs, (⟨⟨[9], 4⟩, [⟨[7, 8], 2⟩]⟩ : ChunkList Nat).rest
      = (⟨⟨[7], 2⟩, []⟩ : ChunkList Nat).rest ++ zs) ∧
    (((⟨⟨[9], 4⟩, [⟨[7, 8], 2⟩]⟩ : ChunkList Nat).rest
          = (⟨⟨[7], 2⟩, []⟩ : ChunkList Nat).rest ∧
        ∃ ys, (⟨⟨[9], 4⟩, [⟨[7, 8], 2⟩]⟩ : ChunkList Nat).current.data
          = (⟨⟨[7], 2⟩, []⟩ : ChunkList Nat).current.data ++ ys) ∨
      (∃ c zs, (⟨⟨[9], 4⟩, [⟨[7, 8], 2⟩]⟩ : ChunkList Nat).rest
          = (⟨⟨[7], 2⟩, []⟩ : ChunkList Nat).rest ++ c :: zs ∧
        ∃ ys, c.data = (⟨⟨[7], 2⟩, []⟩ : ChunkList Nat).current.data ++ ys)) :=
  allocation_stability Nat [Op.alloc 8, Op.alloc 9]
    ⟨⟨[7], 2⟩, []⟩ ⟨⟨[9], 4⟩, [⟨[7, 8], 2⟩]⟩ (by decide)

/-- C8: `with_capacity 0` produces the same arena state as
`with_capacity 1`, hence behaves identically under every subsequent
sequence of operations; in general `with_capacity` clamps its argument so
the first chunk's capacity is `max(1, n)`. -/
theorem with_capacity_floor (T : Type) :
    withCapacity T 0 = withCapacity T 1 ∧
    (∀ n, (withCapacity T n).current.cap = max 1 n) ∧
    (∀ ops : List (Op T),
      runOps (withCapacity T 0) ops = runOps (withCapacity T 1) ops) := by
  have h0 : withCapacity T 0 = withCapacity T 1 := by
    unfold withCapacity MIN_CAPACITY
    norm_num
  exact ⟨h0, fun n => rfl, fun ops => by rw [h0]⟩

/-- C6 counterexample: start from `with_capacity 1` and call `alloc_extend`
with the four-element sequence `[0, 1, 2, 3]` whose size hint is 0.  The
chunk is exactly full after `i = 1` element of this call was pushed, and the
growth step picks capacity `2 = max(2 * 1, next_power_of_two(1 + 1))`; but
the call still has to place the 1 moved element, the overflow element and
the 2 remaining elements — 4 elements in total — so the chosen capacity is
*not* sufficient for the remainder of the sequence and the new current
chunk's buffer must grow again (a reallocation by the underlying vector)
within the same call, refuting the claim at this input. -/
theorem alloc_extend_growth_counterexample :
    ((allocExtendFull (withCapacity Nat 1) 0 [0, 1, 2, 3]).map
        (fun out => (out.1.current.data, out.1.rest.map Chunk.data,
          out.2.1, out.2.2)))
      = some ([0, 1, 2, 3], [[]], 0, some (1, 2)) ∧
    ¬ (1 + 1 + 2 ≤ 2) := by decide

/-- C6 (amended): when, during an `alloc_extend` call, the current chunk
becomes exactly full after `i` elements of this call were pushed and the
sequence is not yet exhausted, the growth step picks a new capacity `c`
with `c ≥ i + 1` — sufficient for the `i` moved elements plus the overflow
element — and exactly one chunk is retired during the whole call, so no
further *chunk* growth happens within the call; the chosen capacity need
not, however, accommodate the remaining elements of the sequence, which may
force the underlying vector of the new current chunk to reallocate its
buffer before the call returns. -/
theorem alloc_extend_growth_amended (T : Type) (cl : ChunkList T)
    (hint : Nat) (xs : List T) (out : ChunkList T × Nat × Option (Nat × Nat))
    (i c : Nat) (h : allocExtendFull cl hint xs = some out)
    (hgrow : out.2.2 = some (i, c)) :
    i + 1 ≤ c ∧ out.1.rest = cl.rest ++ [cl.current] :=
  (allocExtendFull_spec cl hint xs out h).2.2 i c hgrow

theorem alloc_extend_growth_amended_witness :
    1 + 1 ≤ 2 ∧
    ([⟨[], 1⟩] : List (Chunk Nat))
      = (withCapacity Nat 1).rest ++ [(withCapacity Nat 1).current] :=
  alloc_extend_growth_amended Nat (withCapacity Nat 1) 0 [0, 1, 2]
    (⟨⟨[0, 1, 2], 3⟩, [⟨[], 1⟩]⟩, 0, some (1, 2)) 1 2 (by decide) (by decide)

/-! ### Iterator lemmas -/

lemma drop_of_get? {T : Type} {xs : List T} {k : Nat} {v : T}
    (h : xs.get? k = some v) : xs.drop k = v :: xs.drop (k + 1) := by
  rw [List.get?_eq_getElem?] at h
  obtain ⟨hlt, hv⟩ := List.getElem?_eq_some.mp h
  rw [List.drop_eq_getElem_cons hlt, hv]

lemma nextAux_current_eq {T : Type} (cl : ChunkList T) (k f : Nat) (hf : 1 ≤ f) :
    nextAux f cl (.current k) =
      match cl.current.data.get? k with
      | some v => some (.current (k + 1), .current k, v)
      | none => none := by
  obtain ⟨g, rfl⟩ : ∃ g, f = g + 1 := ⟨f - 1, by omega⟩
  rfl

lemma nextAux_rest_eq {T : Type} (cl : ChunkList T) (i j f : Nat) (hf : 1 ≤ f) :
    nextAux f cl (.rest i j) =
      match cl.rest.get? i with
      | some chunk =>
        match chunk.data.get? j with
        | some v => some (.rest i (j + 1), .rest i j, v)
        | none => nextAux (f - 1) cl (.rest (i + 1) 0)
      | none => nextAux (f - 1) cl (.current 0) := by
  obtain ⟨g, rfl⟩ : ∃ g, f = g + 1 := ⟨f - 1, by omega⟩
  simp only [Nat.add_sub_cancel]
  rfl

lemma nextAux_fuel_stable {T : Type} (cl : ChunkList T) :
    ∀ (d i j f₁ f₂ : Nat), cl.rest.length - i ≤ d →
      d + 2 ≤ f₁ → d + 2 ≤ f₂ →
      nextAux f₁ cl (.rest i j) = nextAux f₂ cl (.rest i j) := by
  intro d
  induction d with
  | zero =>
    intro i j f₁ f₂ hd h1 h2
    have hc : cl.rest.get? i = none := List.get?_eq_none.mpr (by omega)
    rw [nextAux_rest_eq cl i j f₁ (by omega), nextAux_rest_eq cl i j f₂ (by omega)]
    simp only [hc]
    rw [nextAux_current_eq cl 0 (f₁ - 1) (by omega),
      nextAux_current_eq cl 0 (f₂ - 1) (by omega)]
  | succ d ihd =>
    intro i j f₁ f₂ hd h1 h2
    by_cases hi : cl.rest.length ≤ i
    · have hc : cl.rest.get? i = none := List.get?_eq_none.mpr hi
      rw [nextAux_rest_eq cl i j f₁ (by omega), nextAux_rest_eq cl i j f₂ (by omega)]
      simp only [hc]
      rw [nextAux_current_eq cl 0 (f₁ - 1) (by omega),
        nextAux_current_eq cl 0 (f₂ - 1) (by omega)]
    · cases hc : cl.rest.get? i with
      | none => exact absurd (List.get?_eq_none.mp hc) hi
      | some c =>
        rw [nextAux_rest_eq cl i j f₁ (by omega), nextAux_rest_eq cl i j f₂ (by omega)]
        simp only [hc]
        cases hv : c.data.get? j with
        | some v => rfl
        | none => exact ihd (i + 1) 0 (f₁ - 1) (f₂ - 1) (by omega) (by omega) (by omega)

lemma next_current_some {T : Type} (cl : ChunkList T) {k : Nat} {v : T}
    (hv : cl.current.data.get? k = some v) :
    IterMut.next ⟨cl, .current k⟩ = some (⟨cl, .current (k + 1)⟩, .current k, v) := by
  unfold IterMut.next
  rw [nextAux_current_eq cl k (cl.rest.length + 2) (by omega)]
  rw [List.get?_eq_getElem?] at hv
  simp [hv]

lemma next_current_none {T : Type} (cl : ChunkList T) {k : Nat}
    (hv : cl.current.data.get? k = none) :
    IterMut.next ⟨cl, .current k⟩ = none := by
  unfold IterMut.next
  rw [nextAux_current_eq cl k (cl.rest.length + 2) (by omega)]
  rw [List.get?_eq_getElem?] at hv
  simp [hv]

lemma next_rest_yield {T : Type} (cl : ChunkList T) {i j : Nat} {c : Chunk T}
    {v : T} (hc : cl.rest.get? i = some c) (hv : c.data.get? j = some v) :
    IterMut.next ⟨cl, .rest i j⟩ = some (⟨cl, .rest i (j + 1)⟩, .rest i j, v) := by
  unfold IterMut.next
  rw [nextAux_rest_eq cl i j (cl.rest.length + 2) (by omega)]
  rw [List.get?_eq_getElem?] at hc hv
  simp [hc, hv]

lemma next_rest_skip {T : Type} (cl : ChunkList T) {i j : Nat} {c : Chunk T}
    (hc : cl.rest.get? i = some c) (hv : c.data.get? j = none) :
    IterMut.next ⟨cl, .rest i j⟩ = IterMut.next ⟨cl, .rest (i + 1) 0⟩ := by
  have hi : i < cl.rest.length := by
    rw [List.get?_eq_getElem?] at hc
    exact (List.getElem?_eq_some.mp hc).1
  unfold IterMut.next
  rw [nextAux_rest_eq cl i j (cl.rest.length + 2) (by omega)]
  simp only [hc, hv]
  congr 1
  exact nextAux_fuel_stable cl (cl.rest.length - (i + 1)) (i + 1) 0
    (cl.rest.length + 2 - 1) (cl.rest.length + 2) (by omega) (by omega) (by omega)

lemma next_rest_none {T : Type} (cl : ChunkList T) {i : Nat} (j : Nat)
    (hc : cl.rest.get? i = none) :
    IterMut.next ⟨cl, .rest i j⟩ = IterMut.next ⟨cl, .current 0⟩ := by
  unfold IterMut.next
  rw [nextAux_rest_eq cl i j (cl.rest.length + 2) (by omega)]
  simp only [hc]
  congr 1

lemma runIter_succ_some {T : Type} (f : Nat) (it it' : IterMut T)
    (y : ChunkListPosition × T) (h : it.next = some (it', y)) :
    runIter (f + 1) it = y :: runIter f it' := by
  simp only [runIter, h]

lemma runIter_succ_none {T : Type} (f : Nat) (it : IterMut T)
    (h : it.next = none) : runIter (f + 1) it = [] := by
  simp only [runIter, h]

lemma runIter_congr {T : Type} (it₁ it₂ : IterMut T) (h : it₁.next = it₂.next) :
    ∀ fuel, runIter fuel it₁ = runIter fuel it₂ := by
  intro fuel
  cases fuel with
  | zero => rfl
  | succ fuel => simp only [runIter, h]

lemma restSlots_decomp {T : Type} (cl : ChunkList T) (i : Nat) :
    restSlots i (cl.rest.drop i) =
      (match cl.rest.get? i with
       | some c => tagged (ChunkListPosition.rest i) 0 c.data
       | none => []) ++ restSlots (i + 1) (cl.rest.drop (i + 1)) := by
  cases hc : cl.rest.get? i with
  | none =>
    have h1 : cl.rest.length ≤ i := List.get?_eq_none.mp hc
    rw [List.drop_eq_nil_of_le h1, List.drop_eq_nil_of_le (by omega)]
    rfl
  | some c =>
    rw [drop_of_get? hc]
    rfl

lemma posSlots_rest_eq_current {T : Type} (cl : ChunkList T) {i : Nat} (j : Nat)
    (hc : cl.rest.get? i = none) :
    posSlots cl (.rest i j) = posSlots cl (.current 0) := by
  have h1 : cl.rest.length ≤ i := List.get?_eq_none.mp hc
  simp only [posSlots, hc, List.drop_eq_nil_of_le (show cl.rest.length ≤ i + 1 by omega),
    List.drop_zero]
  simp [restSlots]

lemma posSlots_rest_skip {T : Type} (cl : ChunkList T) {i j : Nat} {c : Chunk T}
    (hc : cl.rest.get? i = some c) (hv : c.data.get? j = none) :
    posSlots cl (.rest i j) = posSlots cl (.rest (i + 1) 0) := by
  have hj : c.data.length ≤ j := List.get?_eq_none.mp hv
  have hdec := restSlots_decomp cl (i + 1)
  simp only [posSlots, hc, List.drop_eq_nil_of_le hj, List.drop_zero]
  rw [← hdec]
  simp [tagged]

lemma posSlots_rest_yield {T : Type} (cl : ChunkList T) {i j : Nat} {c : Chunk T}
    {v : T} (hc : cl.rest.get? i = some c) (hv : c.data.get? j = some v) :
    posSlots cl (.rest i j) = (.rest i j, v) :: posSlots cl (.rest i (j + 1)) := by
  simp only [posSlots, hc]
  rw [drop_of_get? hv]
  rfl

lemma posSlots_current_yield {T : Type} (cl : ChunkList T) {k : Nat} {v : T}
    (hv : cl.current.data.get? k = some v) :
    posSlots cl (.current k) = (.current k, v) :: posSlots cl (.current (k + 1)) := by
  simp only [posSlots]
  rw [drop_of_get? hv]
  rfl

lemma posSlots_current_end {T : Type} (cl : ChunkList T) {k : Nat}
    (hv : cl.current.data.get? k = none) :
    posSlots cl (.current k) = [] := by
  simp only [posSlots, List.drop_eq_nil_of_le (List.get?_eq_none.mp hv)]
  rfl

lemma runIter_posSlots {T : Type} (cl : ChunkList T) :
    ∀ (fuel : Nat) (pos : ChunkListPosition),
      (posSlots cl pos).length ≤ fuel →
      runIter fuel ⟨cl, pos⟩ = posSlots cl pos := by
  intro fuel
  induction fuel with
  | zero =>
    intro pos hlen
    have h0 : posSlots cl pos = [] := List.length_eq_zero.mp (by omega)
    rw [h0]
    rfl
  | succ f IHf =>
    have hcur : ∀ k, (posSlots cl (.current k)).length ≤ f + 1 →
        runIter (f + 1) ⟨cl, .current k⟩ = posSlots cl (.current k) := by
      intro k hk
      cases hv : cl.current.data.get? k with
      | none =>
        rw [posSlots_current_end cl hv, runIter_succ_none f _ (next_current_none cl hv)]
      | some v =>
        rw [posSlots_current_yield cl hv] at hk ⊢
        rw [runIter_succ_some f _ _ _ (next_current_some cl hv)]
        have := IHf (.current (k + 1)) (by simpa using hk)
        rw [this]
    intro pos
    cases pos with
    | current k => exact hcur k
    | rest i j =>
      have hrest : ∀ (d i j : Nat), cl.rest.length - i ≤ d →
          (posSlots cl (.rest i j)).length ≤ f + 1 →
          runIter (f + 1) ⟨cl, .rest i j⟩ = posSlots cl (.rest i j) := by
        intro d
        induction d with
        | zero =>
          intro i j hd hlen
          have hc : cl.rest.get? i = none := List.get?_eq_none.mpr (by omega)
          rw [posSlots_rest_eq_current cl j hc] at hlen ⊢
          rw [runIter_congr _ _ (next_rest_none cl j hc) (f + 1)]
          exact hcur 0 hlen
        | succ d ihd =>
          intro i j hd hlen
          by_cases hi : cl.rest.length ≤ i
          · have hc : cl.rest.get? i = none := List.get?_eq_none.mpr hi
            rw [posSlots_rest_eq_current cl j hc] at hlen ⊢
            rw [runIter_congr _ _ (next_rest_none cl j hc) (f + 1)]
            exact hcur 0 hlen
          · cases hc : cl.rest.get? i with
            | none => exact absurd (List.get?_eq_none.mp hc) hi
            | some c =>
              cases hv : c.data.get? j with
              | none =>
                rw [posSlots_rest_skip cl hc hv] at hlen ⊢
                rw [runIter_congr _ _ (next_rest_skip cl hc hv) (f + 1)]
                exact ihd (i + 1) 0 (by omega) hlen
              | some v =>
                rw [posSlots_rest_yield cl hc hv] at hlen ⊢
                rw [runIter_succ_some f _ _ _ (next_rest_yield cl hc hv)]
                have := IHf (.rest i (j + 1)) (by simpa using hlen)
                rw [this]
      exact hrest cl.rest.length i j (by omega)

/-- C3: for every arena state — any pattern of chunk growth, including empty
retired chunks — driving the iterator of `iter_mut` with at least as much
fuel as there are stored elements yields exactly the allocation-order slot
list: one (slot, value) pair per stored element, all of `rest` chunk by
chunk oldest first and then `current`, with no slot repeated or skipped;
further fuel yields nothing more, and the values of that slot list are
exactly the stored elements `into_vec` would return. -/
theorem iter_mut_exactly_once (T : Type) (cl : ChunkList T) (fuel : Nat)
    (h : (intoVec cl).length ≤ fuel) :
    runIter fuel (iterMut cl) = allocSlots cl ∧
    (allocSlots cl).map Prod.snd = intoVec cl := by
  have hsnd := allocSlots_map_snd cl
  have hlen : (allocSlots cl).length = (intoVec cl).length := by
    rw [← hsnd, List.length_map]
  have hdec := restSlots_decomp cl 0
  rw [List.drop_zero] at hdec
  have hpos : posSlots cl (.rest 0 0) = allocSlots cl := by
    simp only [posSlots, List.drop_zero, allocSlots, hdec, List.append_assoc]
  refine ⟨?_, hsnd⟩
  rw [iterMut, ← hpos]
  exact runIter_posSlots cl fuel (.rest 0 0) (by rw [hpos]; omega)

theorem iter_mut_exactly_once_witness :
    runIter 3 (iterMut (⟨⟨[30], 2⟩, [⟨[10, 20], 2⟩, ⟨[], 1⟩]⟩ : ChunkList Nat))
      = allocSlots (⟨⟨[30], 2⟩, [⟨[10, 20], 2⟩, ⟨[], 1⟩]⟩ : ChunkList Nat) ∧
    (allocSlots (⟨⟨[30], 2⟩, [⟨[10, 20], 2⟩, ⟨[], 1⟩]⟩ : ChunkList Nat)).map
        Prod.snd
      = intoVec (⟨⟨[30], 2⟩, [⟨[10, 20], 2⟩, ⟨[], 1⟩]⟩ : ChunkList Nat) :=
  iter_mut_exactly_once Nat ⟨⟨[30], 2⟩, [⟨[10, 20], 2⟩, ⟨[], 1⟩]⟩ 3 (by decide)

end TypedArena
